import Mathlib

/-!
Verification of the spinlock in `src/simple_threading.c`.

The lock is a struct of three fields (`flag`, `guard`, `queue`) and three
operations (`simple_lock_init`, `simple_lock_acquire`, `simple_lock_release`).
We embed it shallowly: the struct becomes a Lean structure, each atomic or
volatile memory access of the C code becomes one transition of an interleaving
machine over `N` threads, and the demonstration harness's critical section is
instrumented (as the spec's testable properties prescribe) as a non-atomic
read-then-write increment of a shared counter.
-/

set_option maxHeartbeats 1000000

/-- The C struct `simple_lock_t`: `flag` is the main lock flag (the spec's
`held`), `guard` protects the flag, `queue` counts waiting threads (the
spec's `waiters`, a C `int`, hence `Int`). -/
structure simple_lock_t where
  flag : Bool
  guard : Bool
  queue : Int
deriving DecidableEq, Repr

/-- `simple_lock_init`: sets `flag = false`, `guard = false`, `queue = 0`,
regardless of the previous contents of the struct. -/
def simple_lock_init (_lock : simple_lock_t) : simple_lock_t :=
  { flag := false, guard := false, queue := 0 }

/-- `simple_lock_release`: `__atomic_store_n(&lock->flag, false, __ATOMIC_RELEASE)` —
stores false to `flag` and touches nothing else. -/
def simple_lock_release (lock : simple_lock_t) : simple_lock_t :=
  { lock with flag := false }

/-- Program locations of one worker thread.  The first seven locations are the
individual memory accesses of `simple_lock_acquire`; `csRead`/`csWrite` are the
two halves of the instrumented non-atomic critical-section increment;
`relStore` is the single store of `simple_lock_release`. -/
inductive Loc where
  | entry          -- about to run __atomic_fetch_add(&lock->queue, 1, SEQ_CST)
  | tryGuard       -- about to run __atomic_test_and_set(&lock->guard, ACQUIRE)
  | checkFlag      -- holds guard; about to read lock->flag
  | takeFlag       -- read flag == false; about to store lock->flag = true
  | clearGuardAcq  -- about to store lock->guard = false (lock-acquired path)
  | clearGuardRetry  -- about to store lock->guard = false (retry path, then usleep(100))
  | decQueue       -- about to run __atomic_fetch_sub(&lock->queue, 1, SEQ_CST)
  | csRead         -- acquire returned; about to read the shared counter
  | csWrite        -- about to write counter := (value read) + 1
  | relStore       -- about to run simple_lock_release
  | done           -- thread finished
deriving DecidableEq, Repr

open Loc

/-- One memory access of `simple_lock_acquire`, as a step on the pair
(program location, lock struct).  Translated line by line from the C:
the TAS spins while `guard` is true (with `usleep(10)` between attempts,
modelled as the stutter transition), a successful TAS proceeds to inspect
`flag`, the free case stores `flag = true` then clears `guard` and leaves the
loop, the contended case clears `guard`, sleeps `usleep(100)` and retries.
Locations outside `simple_lock_acquire` are left in place. -/
def simple_lock_acquire_step : Loc → simple_lock_t → Loc × simple_lock_t
  | entry, lock => (tryGuard, { lock with queue := lock.queue + 1 })
  | tryGuard, lock =>
      if lock.guard then (tryGuard, lock)      -- TAS returned true: spin, usleep(10)
      else (checkFlag, { lock with guard := true })
  | checkFlag, lock =>
      if lock.flag then (clearGuardRetry, lock)  -- lock not available
      else (takeFlag, lock)                      -- lock is free
  | takeFlag, lock => (clearGuardAcq, { lock with flag := true })
  | clearGuardAcq, lock => (decQueue, { lock with guard := false })
  | clearGuardRetry, lock => (tryGuard, { lock with guard := false })  -- then usleep(100)
  | decQueue, lock => (csRead, { lock with queue := lock.queue - 1 })
  | l, lock => (l, lock)   -- csRead, csWrite, relStore, done: not part of acquire

/-- Global state of the interleaved system: the shared lock, the shared
non-atomic counter, each thread's program location, and each thread's local
register holding the counter value it read. -/
structure Sys (N : Nat) where
  lock : simple_lock_t
  counter : Int
  pc : Fin N → Loc
  tmp : Fin N → Int

/-- One atomic step of thread `t`: the acquire locations delegate to
`simple_lock_acquire_step`; `csRead`/`csWrite` are the non-atomic increment of
the shared counter; `relStore` is `simple_lock_release`; `done` stutters. -/
def stepThread {N : Nat} (s : Sys N) (t : Fin N) : Sys N :=
  match s.pc t with
  | csRead =>
      { s with tmp := Function.update s.tmp t s.counter,
               pc := Function.update s.pc t csWrite }
  | csWrite =>
      { s with counter := s.tmp t + 1,
               pc := Function.update s.pc t relStore }
  | relStore =>
      { s with lock := simple_lock_release s.lock,
               pc := Function.update s.pc t done }
  | done => s
  | l =>
      { s with lock := (simple_lock_acquire_step l s.lock).2,
               pc := Function.update s.pc t (simple_lock_acquire_step l s.lock).1 }

/-- Run a schedule: at each step the scheduled thread executes one atomic
action.  Any list of thread ids is a legal interleaving. -/
def run {N : Nat} (s : Sys N) : List (Fin N) → Sys N
  | [] => s
  | t :: ts => run (stepThread s t) ts

/-- The initial system: the lock freshly initialized by `simple_lock_init`,
counter 0, every thread about to call `simple_lock_acquire`. -/
def initSys (N : Nat) : Sys N :=
  { lock := simple_lock_init { flag := true, guard := true, queue := 37 },
    counter := 0,
    pc := fun _ => entry,
    tmp := fun _ => 0 }

/-- Locations at which a thread holds the `guard` flag (between a successful
test-and-set and the matching `guard = false` store). -/
def inGuardCrit : Loc → Bool
  | checkFlag | takeFlag | clearGuardAcq | clearGuardRetry => true
  | _ => false

/-- Locations at which a thread owns the main lock `flag` (from its
`flag = true` store up to its `simple_lock_release` store). -/
def ownsFlag : Loc → Bool
  | clearGuardAcq | decQueue | csRead | csWrite | relStore => true
  | _ => false

/-- Locations inside `simple_lock_acquire`'s contention phase: after the
`queue` increment and before the `queue` decrement has executed. -/
def contending : Loc → Bool
  | tryGuard | checkFlag | takeFlag | clearGuardAcq | clearGuardRetry | decQueue => true
  | _ => false

/-- Locations at which a thread has already performed its critical-section
increment of the shared counter. -/
def finishedInc : Loc → Bool
  | relStore | done => true
  | _ => false

/-- Locations inside the critical section: `simple_lock_acquire` has returned
and `simple_lock_release`'s store has not yet executed. -/
def inCS : Loc → Bool
  | csRead | csWrite | relStore => true
  | _ => false

/-- How many threads sit at a location satisfying `p`. -/
def countLoc {N : Nat} (p : Loc → Bool) (pc : Fin N → Loc) : Int :=
  ∑ t, if p (pc t) then 1 else 0

/-- The inductive invariant of the interleaved system:
`guard` is held by exactly one thread in its guard window (or by none when
clear); `flag` is owned by exactly one thread (or free); a thread about to
store `flag = true` saw it false; the shared counter counts the completed
increments; a thread between its counter read and write has an up-to-date
register; `queue` counts the threads in the contention phase. -/
def SysInv {N : Nat} (s : Sys N) : Prop :=
  countLoc inGuardCrit s.pc = (if s.lock.guard then 1 else 0)
  ∧ countLoc ownsFlag s.pc = (if s.lock.flag then 1 else 0)
  ∧ (∀ t, s.pc t = takeFlag → s.lock.flag = false)
  ∧ s.counter = countLoc finishedInc s.pc
  ∧ (∀ t, s.pc t = csWrite → s.tmp t = s.counter)
  ∧ s.lock.queue = countLoc contending s.pc

/-- Updating one thread's location changes a location count by the difference
of the indicator at the new and at the old location. -/
lemma countLoc_update {N : Nat} (p : Loc → Bool) (pc : Fin N → Loc) (t : Fin N) (l : Loc) :
    countLoc p (Function.update pc t l)
      = countLoc p pc + (if p l then 1 else 0) - (if p (pc t) then 1 else 0) := by
  classical
  unfold countLoc
  rw [← Finset.sum_erase_add Finset.univ _ (Finset.mem_univ t),
      ← Finset.sum_erase_add Finset.univ
        (fun u => if p (pc u) then (1 : Int) else 0) (Finset.mem_univ t)]
  have h : ∑ u ∈ Finset.univ.erase t, (if p (Function.update pc t l u) then (1 : Int) else 0)
      = ∑ u ∈ Finset.univ.erase t, (if p (pc u) then (1 : Int) else 0) := by
    refine Finset.sum_congr rfl fun u hu => ?_
    rw [Function.update_noteq (Finset.ne_of_mem_erase hu)]
  rw [h, Function.update_same]
  ring

/-- A location count is nonnegative. -/
lemma countLoc_nonneg {N : Nat} (p : Loc → Bool) (pc : Fin N → Loc) :
    0 ≤ countLoc p pc := by
  unfold countLoc
  exact Finset.sum_nonneg fun u _ => by positivity

/-- A thread at a counted location contributes one to the count. -/
lemma one_le_countLoc {N : Nat} {p : Loc → Bool} {pc : Fin N → Loc} {t : Fin N}
    (h : p (pc t) = true) : 1 ≤ countLoc p pc := by
  classical
  have hnn : ∀ u ∈ (Finset.univ : Finset (Fin N)),
      (0 : Int) ≤ (fun u => if p (pc u) then (1 : Int) else 0) u := by
    intro u _
    by_cases hc : p (pc u) <;> simp [hc]
  have hle := Finset.single_le_sum hnn (Finset.mem_univ t)
  unfold countLoc
  simpa [h] using hle

/-- When a location count is at most one, two threads at counted locations
coincide. -/
lemma countLoc_le_one_unique {N : Nat} {p : Loc → Bool} {pc : Fin N → Loc}
    (hle : countLoc p pc ≤ 1) {t₁ t₂ : Fin N}
    (h₁ : p (pc t₁) = true) (h₂ : p (pc t₂) = true) : t₁ = t₂ := by
  classical
  by_contra hne
  have hmem : t₂ ∈ Finset.univ.erase t₁ :=
    Finset.mem_erase.mpr ⟨fun h => hne h.symm, Finset.mem_univ t₂⟩
  have hnn : ∀ u ∈ Finset.univ.erase t₁,
      (0 : Int) ≤ (fun u => if p (pc u) then (1 : Int) else 0) u := by
    intro u _
    by_cases hc : p (pc u) <;> simp [hc]
  have hb := Finset.single_le_sum hnn hmem
  simp only [h₂, if_true] at hb
  have hsplit := Finset.sum_erase_add Finset.univ
      (fun u => if p (pc u) then (1 : Int) else 0) (Finset.mem_univ t₁)
  have hcount : countLoc p pc
      = (∑ u ∈ Finset.univ.erase t₁, if p (pc u) then (1 : Int) else 0)
        + (if p (pc t₁) then (1 : Int) else 0) := by
    unfold countLoc
    exact hsplit.symm
  rw [hcount, h₁] at hle
  simp only [if_true] at hle
  omega

/-- When no thread sits at a counted location the count is zero. -/
lemma countLoc_eq_zero {N : Nat} {p : Loc → Bool} {pc : Fin N → Loc}
    (h : ∀ t, p (pc t) = false) : countLoc p pc = 0 := by
  unfold countLoc
  exact Finset.sum_eq_zero fun u _ => by rw [h u]; rfl

/-- A positive count names a thread at a counted location. -/
lemma exists_of_countLoc_pos {N : Nat} {p : Loc → Bool} {pc : Fin N → Loc}
    (h : 0 < countLoc p pc) : ∃ t, p (pc t) = true := by
  by_contra hno
  push_neg at hno
  have : countLoc p pc = 0 :=
    countLoc_eq_zero fun t => by simpa using hno t
  omega

/-- The invariant holds initially. -/
lemma sysInv_init (N : Nat) : SysInv (initSys N) := by
  unfold SysInv initSys simple_lock_init
  refine ⟨?_, ?_, ?_, ?_, ?_, ?_⟩ <;>
    simp [countLoc, inGuardCrit, ownsFlag, finishedInc, contending]

/-- The invariant is preserved by every step of every thread. -/
lemma sysInv_step {N : Nat} {s : Sys N} (h : SysInv s) (t : Fin N) :
    SysInv (stepThread s t) := by
  obtain ⟨hG, hF, hE, hC, hT, hQ⟩ := h
  have hGle : countLoc inGuardCrit s.pc ≤ 1 := by rw [hG]; split <;> norm_num
  have hFle : countLoc ownsFlag s.pc ≤ 1 := by rw [hF]; split <;> norm_num
  cases hpc : s.pc t
  case entry =>
    simp only [stepThread, hpc, simple_lock_acquire_step]
    unfold SysInv
    dsimp only
    refine ⟨?_, ?_, fun u hu => ?_, ?_, fun u hu => ?_, ?_⟩
    · rw [countLoc_update, hpc]
      simp [inGuardCrit] at hG ⊢
      omega
    · rw [countLoc_update, hpc]
      simp [ownsFlag] at hF ⊢
      omega
    · rcases eq_or_ne u t with rfl | hne
      · rw [Function.update_same] at hu
        simp at hu
      · rw [Function.update_noteq hne] at hu
        exact hE u hu
    · rw [countLoc_update, hpc]
      simp [finishedInc] at hC ⊢
      omega
    · rcases eq_or_ne u t with rfl | hne
      · rw [Function.update_same] at hu
        simp at hu
      · rw [Function.update_noteq hne] at hu
        exact hT u hu
    · rw [countLoc_update, hpc]
      simp [contending] at hQ ⊢
      omega
  case tryGuard =>
    cases hg : s.lock.guard
    · simp only [stepThread, hpc, simple_lock_acquire_step, hg, Bool.false_eq_true, if_false]
      unfold SysInv
      dsimp only
      rw [hg] at hG
      simp only [Bool.false_eq_true, if_false] at hG
      refine ⟨?_, ?_, fun u hu => ?_, ?_, fun u hu => ?_, ?_⟩
      · rw [countLoc_update, hpc]
        simp [inGuardCrit] at hG ⊢
        omega
      · rw [countLoc_update, hpc]
        simp [ownsFlag] at hF ⊢
        omega
      · rcases eq_or_ne u t with rfl | hne
        · rw [Function.update_same] at hu
          simp at hu
        · rw [Function.update_noteq hne] at hu
          exact hE u hu
      · rw [countLoc_update, hpc]
        simp [finishedInc] at hC ⊢
        omega
      · rcases eq_or_ne u t with rfl | hne
        · rw [Function.update_same] at hu
          simp at hu
        · rw [Function.update_noteq hne] at hu
          exact hT u hu
      · rw [countLoc_update, hpc]
        simp [contending] at hQ ⊢
        omega
    · simp only [stepThread, hpc, simple_lock_acquire_step, hg, if_true]
      unfold SysInv
      dsimp only
      refine ⟨?_, ?_, fun u hu => ?_, ?_, fun u hu => ?_, ?_⟩
      · rw [countLoc_update, hpc]
        simp [inGuardCrit] at hG ⊢
        omega
      · rw [countLoc_update, hpc]
        simp [ownsFlag] at hF ⊢
        omega
      · rcases eq_or_ne u t with rfl | hne
        · rw [Function.update_same] at hu
          simp at hu
        · rw [Function.update_noteq hne] at hu
          exact hE u hu
      · rw [countLoc_update, hpc]
        simp [finishedInc] at hC ⊢
        omega
      · rcases eq_or_ne u t with rfl | hne
        · rw [Function.update_same] at hu
          simp at hu
        · rw [Function.update_noteq hne] at hu
          exact hT u hu
      · rw [countLoc_update, hpc]
        simp [contending] at hQ ⊢
        omega
  case checkFlag =>
    cases hf : s.lock.flag
    · simp only [stepThread, hpc, simple_lock_acquire_step, hf, Bool.false_eq_true, if_false]
      unfold SysInv
      dsimp only
      refine ⟨?_, ?_, fun u hu => ?_, ?_, fun u hu => ?_, ?_⟩
      · rw [countLoc_update, hpc]
        simp [inGuardCrit] at hG ⊢
        omega
      · rw [countLoc_update, hpc]
        simp [ownsFlag] at hF ⊢
        omega
      · exact hf
      · rw [countLoc_update, hpc]
        simp [finishedInc] at hC ⊢
        omega
      · rcases eq_or_ne u t with rfl | hne
        · rw [Function.update_same] at hu
          simp at hu
        · rw [Function.update_noteq hne] at hu
          exact hT u hu
      · rw [countLoc_update, hpc]
        simp [contending] at hQ ⊢
        omega
    · simp only [stepThread, hpc, simple_lock_acquire_step, hf, if_true]
      unfold SysInv
      dsimp only
      refine ⟨?_, ?_, fun u hu => ?_, ?_, fun u hu => ?_, ?_⟩
      · rw [countLoc_update, hpc]
        simp [inGuardCrit] at hG ⊢
        omega
      · rw [countLoc_update, hpc]
        simp [ownsFlag] at hF ⊢
        omega
      · rcases eq_or_ne u t with rfl | hne
        · rw [Function.update_same] at hu
          simp at hu
        · rw [Function.update_noteq hne] at hu
          exact hE u hu
      · rw [countLoc_update, hpc]
        simp [finishedInc] at hC ⊢
        omega
      · rcases eq_or_ne u t with rfl | hne
        · rw [Function.update_same] at hu
          simp at hu
        · rw [Function.update_noteq hne] at hu
          exact hT u hu
      · rw [countLoc_update, hpc]
        simp [contending] at hQ ⊢
        omega
  case takeFlag =>
    have hflag : s.lock.flag = false := hE t hpc
    simp only [stepThread, hpc, simple_lock_acquire_step]
    unfold SysInv
    dsimp only
    rw [hflag] at hF
    simp only [Bool.false_eq_true, if_false] at hF
    refine ⟨?_, ?_, fun u hu => ?_, ?_, fun u hu => ?_, ?_⟩
    · rw [countLoc_update, hpc]
      simp [inGuardCrit] at hG ⊢
      omega
    · rw [countLoc_update, hpc]
      simp [ownsFlag] at hF ⊢
      omega
    · rcases eq_or_ne u t with rfl | hne
      · rw [Function.update_same] at hu
        simp at hu
      · rw [Function.update_noteq hne] at hu
        exact absurd (countLoc_le_one_unique hGle
          (by rw [hu]; rfl) (by rw [hpc]; rfl)) hne
    · rw [countLoc_update, hpc]
      simp [finishedInc] at hC ⊢
      omega
    · rcases eq_or_ne u t with rfl | hne
      · rw [Function.update_same] at hu
        simp at hu
      · rw [Function.update_noteq hne] at hu
        exact hT u hu
    · rw [countLoc_update, hpc]
      simp [contending] at hQ ⊢
      omega
  case clearGuardAcq =>
    have h1 : 1 ≤ countLoc inGuardCrit s.pc := one_le_countLoc (by rw [hpc]; rfl)
    have hg : s.lock.guard = true := by
      cases hgb : s.lock.guard
      · rw [hgb] at hG
        simp at hG
        omega
      · rfl
    rw [hg] at hG
    simp only [if_true] at hG
    simp only [stepThread, hpc, simple_lock_acquire_step]
    unfold SysInv
    dsimp only
    refine ⟨?_, ?_, fun u hu => ?_, ?_, fun u hu => ?_, ?_⟩
    · rw [countLoc_update, hpc]
      simp [inGuardCrit] at hG ⊢
      omega
    · rw [countLoc_update, hpc]
      simp [ownsFlag] at hF ⊢
      omega
    · rcases eq_or_ne u t with rfl | hne
      · rw [Function.update_same] at hu
        simp at hu
      · rw [Function.update_noteq hne] at hu
        exact hE u hu
    · rw [countLoc_update, hpc]
      simp [finishedInc] at hC ⊢
      omega
    · rcases eq_or_ne u t with rfl | hne
      · rw [Function.update_same] at hu
        simp at hu
      · rw [Function.update_noteq hne] at hu
        exact hT u hu
    · rw [countLoc_update, hpc]
      simp [contending] at hQ ⊢
      omega
  case clearGuardRetry =>
    have h1 : 1 ≤ countLoc inGuardCrit s.pc := one_le_countLoc (by rw [hpc]; rfl)
    have hg : s.lock.guard = true := by
      cases hgb : s.lock.guard
      · rw [hgb] at hG
        simp at hG
        omega
      · rfl
    rw [hg] at hG
    simp only [if_true] at hG
    simp only [stepThread, hpc, simple_lock_acquire_step]
    unfold SysInv
    dsimp only
    refine ⟨?_, ?_, fun u hu => ?_, ?_, fun u hu => ?_, ?_⟩
    · rw [countLoc_update, hpc]
      simp [inGuardCrit] at hG ⊢
      omega
    · rw [countLoc_update, hpc]
      simp [ownsFlag] at hF ⊢
      omega
    · rcases eq_or_ne u t with rfl | hne
      · rw [Function.update_same] at hu
        simp at hu
      · rw [Function.update_noteq hne] at hu
        exact hE u hu
    · rw [countLoc_update, hpc]
      simp [finishedInc] at hC ⊢
      omega
    · rcases eq_or_ne u t with rfl | hne
      · rw [Function.update_same] at hu
        simp at hu
      · rw [Function.update_noteq hne] at hu
        exact hT u hu
    · rw [countLoc_update, hpc]
      simp [contending] at hQ ⊢
      omega
  case decQueue =>
    simp only [stepThread, hpc, simple_lock_acquire_step]
    unfold SysInv
    dsimp only
    refine ⟨?_, ?_, fun u hu => ?_, ?_, fun u hu => ?_, ?_⟩
    · rw [countLoc_update, hpc]
      simp [inGuardCrit] at hG ⊢
      omega
    · rw [countLoc_update, hpc]
      simp [ownsFlag] at hF ⊢
      omega
    · rcases eq_or_ne u t with rfl | hne
      · rw [Function.update_same] at hu
        simp at hu
      · rw [Function.update_noteq hne] at hu
        exact hE u hu
    · rw [countLoc_update, hpc]
      simp [finishedInc] at hC ⊢
      omega
    · rcases eq_or_ne u t with rfl | hne
      · rw [Function.update_same] at hu
        simp at hu
      · rw [Function.update_noteq hne] at hu
        exact hT u hu
    · rw [countLoc_update, hpc]
      simp [contending] at hQ ⊢
      omega
  case csRead =>
    simp only [stepThread, hpc]
    unfold SysInv
    dsimp only
    refine ⟨?_, ?_, fun u hu => ?_, ?_, fun u hu => ?_, ?_⟩
    · rw [countLoc_update, hpc]
      simp [inGuardCrit] at hG ⊢
      omega
    · rw [countLoc_update, hpc]
      simp [ownsFlag] at hF ⊢
      omega
    · rcases eq_or_ne u t with rfl | hne
      · rw [Function.update_same] at hu
        simp at hu
      · rw [Function.update_noteq hne] at hu
        exact hE u hu
    · rw [countLoc_update, hpc]
      simp [finishedInc] at hC ⊢
      omega
    · rcases eq_or_ne u t with rfl | hne
      · simp
      · rw [Function.update_noteq hne] at hu
        rw [Function.update_noteq hne]
        exact hT u hu
    · rw [countLoc_update, hpc]
      simp [contending] at hQ ⊢
      omega
  case csWrite =>
    have htc : s.tmp t = s.counter := hT t hpc
    simp only [stepThread, hpc]
    unfold SysInv
    dsimp only
    refine ⟨?_, ?_, fun u hu => ?_, ?_, fun u hu => ?_, ?_⟩
    · rw [countLoc_update, hpc]
      simp [inGuardCrit] at hG ⊢
      omega
    · rw [countLoc_update, hpc]
      simp [ownsFlag] at hF ⊢
      omega
    · rcases eq_or_ne u t with rfl | hne
      · rw [Function.update_same] at hu
        simp at hu
      · rw [Function.update_noteq hne] at hu
        exact hE u hu
    · rw [countLoc_update, hpc]
      simp [finishedInc] at hC ⊢
      omega
    · rcases eq_or_ne u t with rfl | hne
      · rw [Function.update_same] at hu
        simp at hu
      · rw [Function.update_noteq hne] at hu
        exact absurd (countLoc_le_one_unique hFle
          (by rw [hu]; rfl) (by rw [hpc]; rfl)) hne
    · rw [countLoc_update, hpc]
      simp [contending] at hQ ⊢
      omega
  case relStore =>
    have h1 : 1 ≤ countLoc ownsFlag s.pc := one_le_countLoc (by rw [hpc]; rfl)
    have hfl : s.lock.flag = true := by
      cases hfb : s.lock.flag
      · rw [hfb] at hF
        simp at hF
        omega
      · rfl
    rw [hfl] at hF
    simp only [if_true] at hF
    simp only [stepThread, hpc, simple_lock_release]
    unfold SysInv
    dsimp only
    refine ⟨?_, ?_, fun u hu => ?_, ?_, fun u hu => ?_, ?_⟩
    · rw [countLoc_update, hpc]
      simp [inGuardCrit] at hG ⊢
      omega
    · rw [countLoc_update, hpc]
      simp [ownsFlag] at hF ⊢
      omega
    · rfl
    · rw [countLoc_update, hpc]
      simp [finishedInc] at hC ⊢
      omega
    · rcases eq_or_ne u t with rfl | hne
      · rw [Function.update_same] at hu
        simp at hu
      · rw [Function.update_noteq hne] at hu
        exact hT u hu
    · rw [countLoc_update, hpc]
      simp [contending] at hQ ⊢
      omega
  case done =>
    simp only [stepThread, hpc]
    exact ⟨hG, hF, hE, hC, hT, hQ⟩

/-- The invariant holds along every schedule. -/
lemma sysInv_run {N : Nat} {s : Sys N} (h : SysInv s) (sched : List (Fin N)) :
    SysInv (run s sched) := by
  induction sched generalizing s with
  | nil => exact h
  | cons t ts ih => exact ih (sysInv_step h t)

/-- Pointwise: a thread in the critical section owns the lock flag. -/
lemma inCS_le_ownsFlag (l : Loc) :
    (if inCS l then (1 : Int) else 0) ≤ (if ownsFlag l then 1 else 0) := by
  cases l <;> norm_num [inCS, ownsFlag]

/-- C1: after any schedule, at most one thread is inside its critical
section, the shared non-atomic counter equals the number of increments
performed so far, and when every thread has finished the counter equals N. -/
theorem mutual_exclusion_no_lost_updates (N : Nat) (sched : List (Fin N)) :
    countLoc inCS (run (initSys N) sched).pc ≤ 1
    ∧ (run (initSys N) sched).counter
        = countLoc finishedInc (run (initSys N) sched).pc
    ∧ ((∀ t, (run (initSys N) sched).pc t = done) →
        (run (initSys N) sched).counter = (N : Int)) := by
  obtain ⟨hG, hF, hE, hC, hT, hQ⟩ := sysInv_run (sysInv_init N) sched
  have hFle : countLoc ownsFlag (run (initSys N) sched).pc ≤ 1 := by
    rw [hF]; split <;> norm_num
  have hmono : countLoc inCS (run (initSys N) sched).pc
      ≤ countLoc ownsFlag (run (initSys N) sched).pc := by
    unfold countLoc
    exact Finset.sum_le_sum fun u _ => inCS_le_ownsFlag _
  refine ⟨le_trans hmono hFle, hC, fun hdone => ?_⟩
  rw [hC]
  unfold countLoc
  rw [Finset.sum_congr rfl fun u _ => by rw [hdone u]]
  simp [finishedInc, Finset.card_univ]

/-- Locations of the spec's description of the acquire loop. -/
inductive SpecLoc where
  | spin        -- step (a): spinning until the test-and-set takes guard
  | inspectHeld -- won the guard; about to inspect held
  | setHeld     -- step (b): held was false; about to set held = true
  | exitClear   -- step (b): about to release guard and exit the loop
  | retryClear  -- step (c): about to release guard, sleep and retry
  | acquired    -- loop exited, lock acquired
deriving DecidableEq, Repr

/-- Modelled from the spec: one step of the acquire loop of §4.1, following
the spec's words.  (a) Spin (with a short delay between attempts) until guard
can be atomically transitioned from false to true; this is the thread's turn
to inspect held.  (b) If held is false: set held = true, then release guard
(set false), and exit the loop — lock acquired.  (c) Else: release guard
(set false), sleep briefly, and retry from (a). -/
def specLoopStep : SpecLoc → simple_lock_t → SpecLoc × simple_lock_t
  | SpecLoc.spin, k =>
      if k.guard then (SpecLoc.spin, k)
      else (SpecLoc.inspectHeld, { k with guard := true })
  | SpecLoc.inspectHeld, k =>
      if k.flag then (SpecLoc.retryClear, k) else (SpecLoc.setHeld, k)
  | SpecLoc.setHeld, k => (SpecLoc.exitClear, { k with flag := true })
  | SpecLoc.exitClear, k => (SpecLoc.acquired, { k with guard := false })
  | SpecLoc.retryClear, k => (SpecLoc.spin, { k with guard := false })
  | SpecLoc.acquired, k => (SpecLoc.acquired, k)

/-- The code's loop locations, read as the spec's loop steps.  Locations past
the loop (the `queue` decrement and everything later) map to `acquired`;
`entry` (the `queue` increment, before the loop) is not a loop location. -/
def loopAbs : Loc → SpecLoc
  | tryGuard => SpecLoc.spin
  | checkFlag => SpecLoc.inspectHeld
  | takeFlag => SpecLoc.setHeld
  | clearGuardAcq => SpecLoc.exitClear
  | clearGuardRetry => SpecLoc.retryClear
  | _ => SpecLoc.acquired

/-- Does a code location belong to the acquire loop body? -/
def inLoop : Loc → Bool
  | tryGuard | checkFlag | takeFlag | clearGuardAcq | clearGuardRetry => true
  | _ => false

/-- C2: on every loop location and every lock state, the code's acquire step
is exactly the step the spec's algorithm prescribes: the two machines move in
lockstep, location for location and store for store. -/
theorem acquire_follows_spec_algorithm (k : simple_lock_t) :
    ∀ l, inLoop l = true →
      specLoopStep (loopAbs l) k
        = (loopAbs (simple_lock_acquire_step l k).1, (simple_lock_acquire_step l k).2) := by
  intro l hl
  rcases k with ⟨f, g, q⟩
  cases l <;> try exact absurd hl (by decide)
  all_goals cases f <;> cases g <;>
    simp [specLoopStep, loopAbs, simple_lock_acquire_step]

/-- Witness for C2 at a concrete loop location and lock state. -/
theorem acquire_follows_spec_algorithm_witness :
    inLoop tryGuard = true
    ∧ specLoopStep (loopAbs tryGuard) { flag := false, guard := false, queue := 0 }
        = (loopAbs (simple_lock_acquire_step tryGuard
              { flag := false, guard := false, queue := 0 }).1,
           (simple_lock_acquire_step tryGuard
              { flag := false, guard := false, queue := 0 }).2) :=
  ⟨by decide,
   acquire_follows_spec_algorithm { flag := false, guard := false, queue := 0 }
     tryGuard (by decide)⟩

/-- The memory-order annotation a C memory access carries: a GCC `__atomic`
builtin's ordering argument, or `plain` for an ordinary (volatile,
non-`__atomic`) load or store. -/
inductive MemOrder where
  | plain
  | acq
  | rel
  | seqCst
deriving DecidableEq, Repr

/-- Ordering of `__atomic_test_and_set(&lock->guard, __ATOMIC_ACQUIRE)`. -/
def tasGuardOrder : MemOrder := MemOrder.acq

/-- Ordering of the store `lock->guard = false;` on the lock-acquired path:
an ordinary volatile store, carrying no `__atomic` release annotation. -/
def guardClearAcqOrder : MemOrder := MemOrder.plain

/-- Ordering of the store `lock->guard = false;` on the retry path: likewise
an ordinary volatile store. -/
def guardClearRetryOrder : MemOrder := MemOrder.plain

/-- Ordering of `__atomic_store_n(&lock->flag, false, __ATOMIC_RELEASE)`
in `simple_lock_release`. -/
def releaseFlagOrder : MemOrder := MemOrder.rel

/-- Ordering of `__atomic_fetch_add(&lock->queue, 1, __ATOMIC_SEQ_CST)` and
`__atomic_fetch_sub(&lock->queue, 1, __ATOMIC_SEQ_CST)`. -/
def queueUpdateOrder : MemOrder := MemOrder.seqCst

/-- C3 (code evaluated at the divergence): the test-and-set of guard does use
acquire ordering, but neither store that clears guard in
`simple_lock_acquire` is a release store — both are plain stores, contrary
to the spec's requirement. -/
theorem guard_clear_stores_not_release :
    tasGuardOrder = MemOrder.acq
    ∧ guardClearAcqOrder = MemOrder.plain
    ∧ guardClearRetryOrder = MemOrder.plain
    ∧ guardClearAcqOrder ≠ MemOrder.rel
    ∧ guardClearRetryOrder ≠ MemOrder.rel := by
  refine ⟨rfl, rfl, rfl, ?_, ?_⟩ <;> decide

/-- C4: a thread inside its critical section (acquire has returned, release
has not yet stored) sees `flag = true`; and no step of `simple_lock_acquire`
ever changes `flag` from true to false — only `simple_lock_release` (and a
fresh `simple_lock_init`) store false to it. -/
theorem flag_true_while_held (N : Nat) (sched : List (Fin N)) (t : Fin N)
    (hcs : inCS ((run (initSys N) sched).pc t) = true) :
    (run (initSys N) sched).lock.flag = true
    ∧ (∀ l k, k.flag = true → ((simple_lock_acquire_step l k).2).flag = true)
    ∧ (∀ k, (simple_lock_release k).flag = false)
    ∧ (∀ k, (simple_lock_init k).flag = false) := by
  obtain ⟨hG, hF, hE, hC, hT, hQ⟩ := sysInv_run (sysInv_init N) sched
  refine ⟨?_, ?_, fun k => rfl, fun k => rfl⟩
  · have howns : ownsFlag ((run (initSys N) sched).pc t) = true := by
      revert hcs
      cases ((run (initSys N) sched).pc t) <;> simp [inCS, ownsFlag]
    have h1 : 1 ≤ countLoc ownsFlag (run (initSys N) sched).pc :=
      one_le_countLoc howns
    cases hfb : (run (initSys N) sched).lock.flag
    · rw [hfb] at hF
      simp at hF
      omega
    · rfl
  · intro l k hk
    cases l
    case tryGuard => cases hg : k.guard <;> simp [simple_lock_acquire_step, hg, hk]
    case checkFlag =>
      cases hf : k.flag
      · rw [hf] at hk
        exact absurd hk (by decide)
      · simp [simple_lock_acquire_step, hf, hk]
    all_goals simp [simple_lock_acquire_step, simple_lock_release, hk]

/-- Witness for C4: thread 0 of a one-thread system right after acquire
returns (seven steps: six acquire accesses and the counter read). -/
theorem flag_true_while_held_witness :
    inCS ((run (initSys 1) (List.replicate 6 (0 : Fin 1))).pc 0) = true
    ∧ (run (initSys 1) (List.replicate 6 (0 : Fin 1))).lock.flag = true :=
  ⟨by decide,
   (flag_true_while_held 1 (List.replicate 6 (0 : Fin 1)) 0 (by decide)).1⟩

/-- C5: the `simple_lock_release` step of any thread stores false to `flag`
and changes nothing else: `guard`, `queue`, the shared counter, the thread
registers and every other thread's location keep their values. -/
theorem release_frame (N : Nat) (s : Sys N) (t : Fin N)
    (h : s.pc t = relStore) :
    (stepThread s t).lock = simple_lock_release s.lock
    ∧ (stepThread s t).lock.flag = false
    ∧ (stepThread s t).lock.guard = s.lock.guard
    ∧ (stepThread s t).lock.queue = s.lock.queue
    ∧ (stepThread s t).counter = s.counter
    ∧ (stepThread s t).tmp = s.tmp
    ∧ (stepThread s t).pc t = done
    ∧ (∀ u, u ≠ t → (stepThread s t).pc u = s.pc u) := by
  have hs : stepThread s t
      = { s with lock := simple_lock_release s.lock,
                 pc := Function.update s.pc t done } := by
    simp only [stepThread, h]
  rw [hs]
  refine ⟨rfl, rfl, rfl, rfl, rfl, rfl, by simp, fun u hu => ?_⟩
  dsimp only
  exact Function.update_noteq hu _ _

/-- A one-thread state about to execute the release store. -/
def relState : Sys 1 :=
  { lock := { flag := true, guard := false, queue := 0 },
    counter := 1,
    pc := fun _ => relStore,
    tmp := fun _ => 0 }

/-- Witness for C5 at a concrete state holding the lock. -/
theorem release_frame_witness :
    (stepThread relState 0).lock.flag = false
    ∧ (stepThread relState 0).lock.guard = relState.lock.guard
    ∧ (stepThread relState 0).lock.queue = relState.lock.queue
    ∧ (stepThread relState 0).counter = relState.counter :=
  ⟨(release_frame 1 relState 0 rfl).2.1,
   (release_frame 1 relState 0 rfl).2.2.1,
   (release_frame 1 relState 0 rfl).2.2.2.1,
   (release_frame 1 relState 0 rfl).2.2.2.2.1⟩

/-- C6: `simple_lock_init` writes `flag = false`, `guard = false`,
`queue = 0` whatever the prior state, hence is idempotent; and the freshly
initialized lock is immediately usable — six steps of a single thread
complete `simple_lock_acquire` with the flag taken and the queue drained. -/
theorem init_establishes_free_state (k : simple_lock_t) :
    simple_lock_init k = { flag := false, guard := false, queue := 0 }
    ∧ simple_lock_init (simple_lock_init k) = simple_lock_init k
    ∧ (run (initSys 1) (List.replicate 6 (0 : Fin 1))).pc 0 = csRead
    ∧ (run (initSys 1) (List.replicate 6 (0 : Fin 1))).lock
        = { flag := true, guard := false, queue := 0 } :=
  ⟨rfl, rfl, by decide, by decide⟩

/-- C7: `guard` is true exactly when some thread is inside its brief
inspect-and-update window; both guard-clearing stores happen before the
retry sleep and before acquire returns (their successor locations,
`tryGuard` and `decQueue`, are outside the window, as is the first
critical-section location). -/
theorem guard_held_only_in_window (N : Nat) (sched : List (Fin N)) (k : simple_lock_t) :
    ((run (initSys N) sched).lock.guard = true
        ↔ ∃ t, inGuardCrit ((run (initSys N) sched).pc t) = true)
    ∧ (simple_lock_acquire_step clearGuardAcq k).2.guard = false
    ∧ (simple_lock_acquire_step clearGuardRetry k).2.guard = false
    ∧ (simple_lock_acquire_step clearGuardAcq k).1 = decQueue
    ∧ (simple_lock_acquire_step clearGuardRetry k).1 = tryGuard
    ∧ inGuardCrit tryGuard = false
    ∧ inGuardCrit decQueue = false
    ∧ inGuardCrit csRead = false := by
  obtain ⟨hG, hF, hE, hC, hT, hQ⟩ := sysInv_run (sysInv_init N) sched
  refine ⟨⟨fun hg => ?_, fun hex => ?_⟩, rfl, rfl, rfl, rfl, rfl, rfl, rfl⟩
  · rw [hg] at hG
    simp only [if_true] at hG
    exact exists_of_countLoc_pos (by omega)
  · obtain ⟨t, ht⟩ := hex
    have h1 := one_le_countLoc ht
    cases hgb : (run (initSys N) sched).lock.guard
    · rw [hgb] at hG
      simp at hG
      omega
    · rfl

/-- C8: `queue` always equals the number of threads inside the contention
phase, hence is nonnegative; the increment is the first access of acquire
(before contending), the decrement the last (after the flag was taken, on
the path from `clearGuardAcq`), and no other acquire access touches it. -/
theorem queue_counts_contenders (N : Nat) (sched : List (Fin N)) (k : simple_lock_t) :
    (run (initSys N) sched).lock.queue
        = countLoc contending (run (initSys N) sched).pc
    ∧ 0 ≤ (run (initSys N) sched).lock.queue
    ∧ (simple_lock_acquire_step entry k).2.queue = k.queue + 1
    ∧ (simple_lock_acquire_step entry k).1 = tryGuard
    ∧ (simple_lock_acquire_step decQueue k).2.queue = k.queue - 1
    ∧ (simple_lock_acquire_step decQueue k).1 = csRead
    ∧ (simple_lock_acquire_step clearGuardAcq k).1 = decQueue
    ∧ (∀ l, l ≠ entry → l ≠ decQueue →
        (simple_lock_acquire_step l k).2.queue = k.queue) := by
  obtain ⟨hG, hF, hE, hC, hT, hQ⟩ := sysInv_run (sysInv_init N) sched
  have hnn := countLoc_nonneg contending (run (initSys N) sched).pc
  refine ⟨hQ, by omega, rfl, rfl, rfl, rfl, rfl, fun l h1 h2 => ?_⟩
  cases l
  case entry => exact absurd rfl h1
  case decQueue => exact absurd rfl h2
  case tryGuard => cases hg : k.guard <;> simp [simple_lock_acquire_step, hg]
  case checkFlag => cases hf : k.flag <;> simp [simple_lock_acquire_step, hf]
  all_goals rfl

/-- Forget the `queue` field of a system state: everything the lock
operations and the critical sections can observe. -/
def eraseQueue {N : Nat} (s : Sys N) : Sys N :=
  { s with lock := { s.lock with queue := 0 } }

/-- C9: `queue` never gates anything — two states equal up to `queue` step
to states equal up to `queue`, for every thread: control flow and the
updates of `flag`, `guard`, the counter and the locations are independent
of the waiters count. -/
theorem queue_never_gates (N : Nat) (s₁ s₂ : Sys N) (t : Fin N)
    (h : eraseQueue s₁ = eraseQueue s₂) :
    eraseQueue (stepThread s₁ t) = eraseQueue (stepThread s₂ t) := by
  rcases s₁ with ⟨⟨f₁, g₁, q₁⟩, c₁, pc₁, tmp₁⟩
  rcases s₂ with ⟨⟨f₂, g₂, q₂⟩, c₂, pc₂, tmp₂⟩
  simp only [eraseQueue, Sys.mk.injEq, simple_lock_t.mk.injEq, and_true,
    true_and] at h
  obtain ⟨⟨hf, hg⟩, hc, hpc, htmp⟩ := h
  subst hf; subst hg; subst hc; subst hpc; subst htmp
  cases hl : pc₁ t <;>
    cases f₁ <;> cases g₁ <;>
      simp [stepThread, hl, eraseQueue, simple_lock_acquire_step,
        simple_lock_release]

/-- The initial one-thread state, except that `queue` reads 5. -/
def queueFiveState : Sys 1 :=
  { lock := { flag := false, guard := false, queue := 5 },
    counter := 0, pc := fun _ => entry, tmp := fun _ => 0 }

/-- Witness for C9: the initial one-thread state and the same state with
queue 5 step to the same queue-erased state. -/
theorem queue_never_gates_witness :
    eraseQueue (initSys 1) = eraseQueue queueFiveState
    ∧ eraseQueue (stepThread (initSys 1) 0)
        = eraseQueue (stepThread queueFiveState 0) :=
  ⟨rfl, queue_never_gates 1 (initSys 1) queueFiveState 0 rfl⟩

/-- C10: `simple_lock_release` is total and idempotent: releasing twice
equals releasing once, `guard` and `queue` are untouched, and releasing a
lock whose flag is already false leaves the state exactly as it was —
misuse is neither detected nor does it corrupt state. -/
theorem release_total_idempotent (k : simple_lock_t) :
    simple_lock_release (simple_lock_release k) = simple_lock_release k
    ∧ (simple_lock_release k).flag = false
    ∧ (simple_lock_release k).guard = k.guard
    ∧ (simple_lock_release k).queue = k.queue
    ∧ (k.flag = false → simple_lock_release k = k) := by
  refine ⟨rfl, rfl, rfl, rfl, fun h => ?_⟩
  cases k
  simp_all [simple_lock_release]
